import Mathlib

/-!
Verification of the novi-plugin-host orchestrator core.

This file embeds the dependency-graph building, topological linearization,
spawn loop (`src/novi_plugin_host/__init__.py`, `load_plugins`) and the
restart-cascade controller (`src/novi_plugin_host/__main__.py`,
`restart_plugin`) as executable Lean definitions, and proves the claimed
properties about them.

Modelling conventions:
- Python strings are Lean `String`s; character slicing `s[n:]` is `pyDrop`,
  `s.startswith(p)` is `pyStartsWith` (both act on the character list, as
  Python slicing does).
- Python `dict`s are association lists with distinct keys (the duplicate
  identifier check earlier in `load_plugins` guarantees distinctness there);
  `dictGet` is `d[k]` / `d.get(k)`, `updateEntry` is in-place mutation of the
  value stored at a key.
- Python `set`s of strings are lists with `addElem` insertion; only
  membership is ever observed.  `set.add` returns Python `None`, which is
  falsy: `setAdd` returns the updated set paired with that truthiness.
- The process handle of a plugin is `Option Proc`, set by `spawn` and
  `None` before the first spawn; `Proc.alive` is `Process.is_alive()`.
- I/O effects (logging, yaml parsing, the session service) are out of scope;
  the model starts from the accepted set of plugin records (identifier and
  requirement list) that survive the metadata/disable/duplicate filtering,
  and records log warnings as a list of warned requirement strings.
-/

/-- Python character slicing `s[n:]`. -/
def pyDrop (s : String) (n : Nat) : String := ⟨s.data.drop n⟩

/-- Python `s.startswith(p)`. -/
def pyStartsWith (s p : String) : Bool := p.data.isPrefixOf s.data

/-- A live worker process handle (`multiprocessing.Process`): the only
observable the claims need is `is_alive()`. -/
structure Proc where
  alive : Bool
deriving Repr, DecidableEq

/-- `PluginState` from `__init__.py`: identifier (from its metadata), the
forward/reverse adjacency sets and the process handle (`None` until
spawned).  The configuration / metadata payload fields are irrelevant to
every claim and omitted. -/
structure PluginState where
  identifier : String
  dependencies : List String
  depended_by : List String
  process : Option Proc
deriving Repr, DecidableEq

/-- A fresh `PluginState` as built by the first loop of `load_plugins`:
empty adjacency sets, no process. -/
def PluginState.init (identifier : String) : PluginState :=
  ⟨identifier, [], [], none⟩

/-- `PluginState.spawn`: starts the worker, waits for the readiness event
and stores the handle. -/
def PluginState.spawn (st : PluginState) : PluginState :=
  { st with process := some ⟨true⟩ }

abbrev Table := List (String × PluginState)

/-- Python `d.get(k)` / `d[k]` on an association-list dict: first match. -/
def dictGet {α : Type} : List (String × α) → String → Option α
  | [], _ => none
  | (k, v) :: rest, x => if k = x then some v else dictGet rest x

/-- In-place mutation of the value stored under key `k`. -/
def updateEntry {α : Type} (k : String) (f : α → α) : List (String × α) → List (String × α)
  | [] => []
  | (k', v) :: rest =>
      if k' = k then (k', f v) :: rest else (k', v) :: updateEntry k f rest

/-- Python `set` insertion (membership-only model). -/
def addElem (s : List String) (x : String) : List String :=
  if x ∈ s then s else s ++ [x]

/-- Python `to_restart.add(dep)` evaluates to `None`, which is falsy: the
pair holds the updated set and the truthiness of the returned value. -/
def setAdd (s : List String) (x : String) : List String × Bool :=
  (addElem s x, false)

/-- The body of the requirement loop of `load_plugins`
(`__init__.py:238-247`) for a single requirement `req` of plugin
`identifier`: warn (but do not skip!) when the requirement does not start
with `depends:`, slice off the first 8 characters, fail when the result is
not a known identifier, otherwise record the edge in both adjacency sets.
The error payload is the missing dependency name. -/
def processReq (identifier req : String) (acc : List String × Table) :
    List String × Except String Table :=
  let warns := if pyStartsWith req "depends:" then acc.1 else acc.1 ++ [req]
  let dep := pyDrop req 8
  if (dictGet acc.2 dep).isSome then
    (warns, .ok (updateEntry identifier
      (fun st => { st with dependencies := addElem st.dependencies dep })
      (updateEntry dep
        (fun st => { st with depended_by := addElem st.depended_by identifier })
        acc.2)))
  else
    (warns, .error dep)

/-- All requirements of one plugin, in order; stops at the first missing
dependency (the Python `raise`). -/
def processReqs (identifier : String) (reqs : List String)
    (warns : List String) (tbl : Table) : List String × Except String Table :=
  match reqs with
  | [] => (warns, .ok tbl)
  | req :: rest =>
      match processReq identifier req (warns, tbl) with
      | (w, .error d) => (w, .error d)
      | (w, .ok tbl') => processReqs identifier rest w tbl'

/-- The dependency-graph building loop of `load_plugins`
(`__init__.py:236-249`): walks the plugin table in insertion order,
resolves every requirement, and collects the `dependencies` dict passed to
`toposort_flatten` (`dependencies[identifier] = state.dependencies`). -/
def buildLoop (tbl : Table) (records : List (String × List String))
    (warns : List String) (deps : List (String × List String)) :
    List String × Except String (Table × List (String × List String)) :=
  match records with
  | [] => (warns, .ok (tbl, deps))
  | (identifier, reqs) :: rest =>
      match processReqs identifier reqs warns tbl with
      | (w, .error d) => (w, .error d)
      | (w, .ok tbl') =>
          let ds := ((dictGet tbl' identifier).getD (PluginState.init identifier)).dependencies
          buildLoop tbl' rest w (deps ++ [(identifier, ds)])

/-- Graph construction from the accepted records (identifier,
requirements): a fresh table keyed in insertion order, then the requirement
loop.  Returns the warning log and either the missing dependency or the
populated table plus the `dependencies` dict. -/
def buildGraph (records : List (String × List String)) :
    List String × Except String (Table × List (String × List String)) :=
  buildLoop (records.map (fun r => (r.1, PluginState.init r.1))) records [] []

/-- The batch collected by one round of `toposort.toposort`: the keys
whose remaining dependency set is empty. -/
def orderedOf (data : List (String × List String)) : List String :=
  (data.filter (fun kv => kv.2.isEmpty)).map Prod.fst

/-- The pruning step of `toposort.toposort`: drop the batch just emitted
and subtract it from every remaining dependency set
(`{item: (dep - ordered) for item, dep in data.items() if item not in ordered}`). -/
def pruneData (data : List (String × List String)) : List (String × List String) :=
  (data.filter (fun kv => decide (kv.1 ∉ orderedOf data))).map
    (fun kv => (kv.1, kv.2.filter (fun d => decide (d ∉ orderedOf data))))

/-- One round of the `while True` loop of `toposort.toposort`: batch of
keys with no remaining dependencies, sorted output per batch
(`toposort_flatten(data, sort=True)`), prune, repeat; leftover data is a
`CircularDependencyError` carrying its keys.  `fuel` dominates the number
of rounds: each productive round removes at least one entry, and the
top-level call supplies `length + 1`.  A fuel-exhausted run reports the
remaining keys, which is never reached from `toposort_flatten`. -/
def toposortAux : Nat → List (String × List String) → Except (List String) (List String)
  | 0, data => .error (data.map Prod.fst)
  | fuel + 1, data =>
      if (orderedOf data).isEmpty then
        if data.isEmpty then .ok [] else .error (data.map Prod.fst)
      else
        match toposortAux fuel (pruneData data) with
        | .error e => .error e
        | .ok l => .ok (List.insertionSort (· ≤ ·) (orderedOf data) ++ l)

/-- The self-dependency discard of `toposort.toposort`
(`for k, v in data.items(): v.discard(k)`). -/
def selfFiltered (data : List (String × List String)) : List (String × List String) :=
  data.map (fun kv => (kv.1, kv.2.filter (fun d => decide (d ≠ kv.1))))

/-- `extra_items_in_deps`: dependency names that are not keys, each
adjoined to the dict with no dependencies of its own. -/
def extraItems (data1 : List (String × List String)) : List String :=
  ((data1.map Prod.snd).flatten.filter (fun d => decide (d ∉ data1.map Prod.fst))).dedup

/-- The dict actually iterated by the batching loop: the self-filtered
input together with the extra items. -/
def fullData (data : List (String × List String)) : List (String × List String) :=
  selfFiltered data ++ (extraItems (selfFiltered data)).map (fun d => (d, ([] : List String)))

/-- `toposort.toposort_flatten` as called by `load_plugins`: empty input
yields an empty order; otherwise self-dependencies are discarded
(`v.discard(k)`), dependency names that are not keys are adjoined with no
dependencies of their own (`extra_items_in_deps`), and the batching loop
runs. -/
def toposort_flatten (data : List (String × List String)) :
    Except (List String) (List String) :=
  if data.isEmpty then .ok []
  else toposortAux ((fullData data).length + 1) (fullData data)

/-- The launch errors surfaced by `load_plugins`: `ValueError('missing
dependency …')` and `CircularDependencyError` (whose payload here is the
keys of the unresolvable remainder). -/
inductive LoadError
  | missingDependency (dep : String)
  | cyclicDependency (remaining : List String)
deriving Repr, DecidableEq

/-- Result of a `load_plugins` run: the warning log, the returned
`(plugins, topo)` pair or the raised error, and the identifiers spawned (in
spawn order) as an observable trace — an exception propagates before the
spawn loop, so a failed launch spawns nothing. -/
structure LoadResult where
  warnings : List String
  outcome : Except LoadError (Table × List String)
  spawned : List String
deriving Repr

/-- The spawn loop `for identifier in topo: plugins[identifier].spawn()`. -/
def spawnAll (tbl : Table) : List String → Table
  | [] => tbl
  | identifier :: rest => spawnAll (updateEntry identifier PluginState.spawn tbl) rest

/-- `toposort` shallow-copies the `dependencies` dict, so `v.discard(k)`
mutates the very set objects stored in each `PluginState.dependencies`:
after a successful linearization every state has lost any self-dependency. -/
def discardSelfDeps (tbl : Table) : Table :=
  tbl.map (fun kv =>
    (kv.1, { kv.2 with dependencies := kv.2.dependencies.filter (fun d => decide (d ≠ kv.1)) }))

/-- `load_plugins` from the accepted records onward (`__init__.py:236-258`):
build the graph, linearize, spawn in order, return `(plugins, topo)`. -/
def load_plugins (records : List (String × List String)) : LoadResult :=
  match buildGraph records with
  | (w, .error d) => ⟨w, .error (.missingDependency d), []⟩
  | (w, .ok (tbl, deps)) =>
      match toposort_flatten deps with
      | .error rem => ⟨w, .error (.cyclicDependency rem), []⟩
      | .ok topo =>
          let tbl := discardSelfDeps tbl
          ⟨w, .ok (spawnAll tbl topo, topo), topo⟩

/-- The Python exceptions `restart_plugin` can raise:
`InvalidArgumentError` for an unknown plugin, `KeyError` from a dict
subscript, `AttributeError` from `None.terminate()`. -/
inductive PyError
  | invalidArgument (msg : String)
  | keyError (key : String)
  | attributeError (msg : String)
deriving Repr, DecidableEq

/-- The inner `for dep in plg.depended_by` loop of `restart_plugin`
(`__main__.py:63-65`): `to_restart.add(dep)` updates the set but returns
`None`, so the truthiness test of `if to_restart.add(dep):` never passes
and `q.append(plugins[dep])` is dead code (the lookup result is defaulted
there for totality; the branch is unreachable). -/
def visitDeps (tbl : Table) : List String → List String → List PluginState →
    List String × List PluginState
  | [], tr, qNew => (tr, qNew)
  | dep :: rest, tr, qNew =>
      let (tr', added) := setAdd tr dep
      let qNew' := if added then
          qNew ++ [(dictGet tbl dep).getD (PluginState.init dep)]
        else qNew
      visitDeps tbl rest tr' qNew'

/-- The `while i < len(q)` traversal of `restart_plugin`
(`__main__.py:57-65`), with the already-processed prefix dropped: pop the
next state, visit its `depended_by`, push whatever `visitDeps` enqueued.
`fuel` bounds the iteration count; since the queue never grows (see
`visitDeps`) any positive fuel completes the loop. -/
def restartLoop (tbl : Table) : Nat → List PluginState → List String → List String
  | 0, _, tr => tr
  | _ + 1, [], tr => tr
  | fuel + 1, plg :: pending, tr =>
      let (tr', qNew) := visitDeps tbl plg.depended_by tr []
      restartLoop tbl fuel (pending ++ qNew) tr'

/-- The restart set computed by `restart_plugin` for target state `st`:
`to_restart = {state.identifier}`, `q = [state]`, then the traversal. -/
def restart_set (tbl : Table) (st : PluginState) : List String :=
  restartLoop tbl (tbl.length + 1) [st] [st.identifier]

/-- `plg.process.terminate(); plg.process.join()` from `restart_plugin`
(`__main__.py:72-73`): on `None` this is an `AttributeError`; on a live
process it signals and reaps it; on an already-exited process both calls
are no-ops. -/
def terminate_join (st : PluginState) : Except PyError PluginState :=
  match st.process with
  | none => .error (.attributeError "NoneType object has no attribute terminate")
  | some p => .ok { st with process := some { p with alive := false } }

/-- Observable actions of the restart walk, for stating the
terminate-then-spawn discipline. -/
inductive RAction
  | terminate (identifier : String)
  | spawn (identifier : String)
deriving Repr, DecidableEq

/-- The `for ident in topo[::-1]` walk of `restart_plugin`
(`__main__.py:67-76`), given the already-reversed order: each identifier in
the restart set is appended to `restarted`, terminated and respawned.
Returns the restarted list, the updated table and the action trace. -/
def restartWalk (tbl : Table) (tr : List String) :
    List String → Except PyError (List String × Table × List RAction)
  | [] => .ok ([], tbl, [])
  | ident :: rest =>
      if ident ∈ tr then
        match dictGet tbl ident with
        | none => .error (.keyError ident)
        | some st =>
            match terminate_join st with
            | .error e => .error e
            | .ok st' =>
                match restartWalk (updateEntry ident (fun _ => st'.spawn) tbl) tr rest with
                | .error e => .error e
                | .ok (r, t, a) =>
                    .ok (ident :: r, t, .terminate ident :: .spawn ident :: a)
      else restartWalk tbl tr rest

/-- `restart_plugin` (`__main__.py:47-77`), after the permission check:
unknown identifiers raise `InvalidArgumentError('unknown plugin: …')`,
otherwise the restart set is computed and the reversed launch order is
walked. -/
def restart_plugin (tbl : Table) (topo : List String) (plugin : String) :
    Except PyError (List String × Table × List RAction) :=
  match dictGet tbl plugin with
  | none => .error (.invalidArgument ("unknown plugin: " ++ plugin))
  | some st => restartWalk tbl (restart_set tbl st) topo.reverse

/-- The edge relation of a dependency dict: `y ∈ g[x]`, i.e. plugin `x`
declares a dependency on plugin `y`. -/
def EdgeG (g : List (String × List String)) (x y : String) : Prop :=
  ∃ ds, dictGet g x = some ds ∧ y ∈ ds

/-- The graph has no (directed) cycle: no identifier reaches itself through
one or more edges. -/
def AcyclicG (g : List (String × List String)) : Prop :=
  ∀ x, ¬ Relation.TransGen (EdgeG g) x x

/-- Referential integrity of a dependency dict: every dependency name is a
key. -/
def ClosedG (g : List (String × List String)) : Prop :=
  ∀ kv ∈ g, ∀ y ∈ kv.2, y ∈ g.map Prod.fst

/-- Referential integrity of the plugin table: both adjacency sets of every
state mention only known identifiers. -/
def TableClosed (tbl : Table) : Prop :=
  ∀ x st, dictGet tbl x = some st →
    (∀ y ∈ st.dependencies, y ∈ tbl.map Prod.fst) ∧
    (∀ y ∈ st.depended_by, y ∈ tbl.map Prod.fst)

/-- The forward and reverse adjacency are exact mirrors of each other. -/
def MirrorTable (tbl : Table) : Prop :=
  ∀ x y stx sty, dictGet tbl x = some stx → dictGet tbl y = some sty →
    (y ∈ stx.dependencies ↔ x ∈ sty.depended_by)

/-- The `dependencies` dict handed to `toposort_flatten` records, per
identifier, exactly the `dependencies` set of its `PluginState`. -/
def DepsMatch (tbl : Table) (deps : List (String × List String)) : Prop :=
  ∀ p ∈ deps, ∃ st, dictGet tbl p.1 = some st ∧ st.dependencies = p.2

/-- Position of the first occurrence of `x` (the index of an identifier in
the launch order). -/
def idxOf : List String → String → Nat
  | [], _ => 0
  | y :: ys, x => if y = x then 0 else idxOf ys x + 1

/-- A three-plugin chain: `b` depends on `a`, `c` depends on `b` (so `c`
depends on `a` transitively). -/
def chainRecords : List (String × List String) :=
  [("a", []), ("b", ["depends:a"]), ("c", ["depends:b"])]

/-- Launch the chain, then ask the controller to restart `a`; `none` if
either step raises. -/
def chainRestart : Option (List String) :=
  match (load_plugins chainRecords).outcome with
  | .ok (tbl, topo) =>
      match restart_plugin tbl topo "a" with
      | .ok (r, _, _) => some r
      | .error _ => none
  | .error _ => none

/-- The plugin table produced by launching `chainRecords` (all three
workers live), used to exercise the restart walk. -/
def tblChain : Table :=
  [("a", ⟨"a", [], ["b"], some ⟨true⟩⟩),
   ("b", ⟨"b", ["a"], ["c"], some ⟨true⟩⟩),
   ("c", ⟨"c", ["b"], [], some ⟨true⟩⟩)]

/-- The state of plugin `a` inside `tblChain`. -/
def stA : PluginState := ⟨"a", [], ["b"], some ⟨true⟩⟩

/-- Two plugins declaring mutual dependency on each other. -/
def mutualRecords : List (String × List String) :=
  [("a", ["depends:b"]), ("b", ["depends:a"])]

/-- Successor choice used in the acyclicity argument: the first stored
dependency of `x` (meaningful when every entry has a nonempty dependency
list). -/
def headDep (data : List (String × List String)) (x : String) : String :=
  match dictGet data x with
  | some (d :: _) => d
  | _ => x

theorem mem_addElem {s : List String} {x z : String} :
    z ∈ addElem s x ↔ z ∈ s ∨ z = x := by
  unfold addElem
  by_cases hx : x ∈ s
  · simp only [if_pos hx]
    constructor
    · exact .inl
    · rintro (h | rfl) <;> assumption
  · simp [if_neg hx]

theorem self_mem_addElem (s : List String) (x : String) : x ∈ addElem s x :=
  mem_addElem.mpr (.inr rfl)

theorem dictGet_eq_none_iff {α : Type} (l : List (String × α)) (k : String) :
    dictGet l k = none ↔ k ∉ l.map Prod.fst := by
  induction l with
  | nil => simp [dictGet]
  | cons kv rest ih =>
      obtain ⟨k', v⟩ := kv
      by_cases h : k' = k
      · subst h; simp [dictGet]
      · simp only [dictGet, if_neg h, List.map_cons, List.mem_cons, ih]
        constructor
        · rintro hk (rfl | hm)
          · exact h rfl
          · exact hk hm
        · intro hk hm; exact hk (.inr hm)

theorem dictGet_isSome_iff {α : Type} (l : List (String × α)) (k : String) :
    (dictGet l k).isSome ↔ k ∈ l.map Prod.fst := by
  rw [Option.isSome_iff_ne_none, ne_eq, dictGet_eq_none_iff, not_not]

theorem mem_keys_of_dictGet {α : Type} {l : List (String × α)} {k : String} {v : α}
    (h : dictGet l k = some v) : k ∈ l.map Prod.fst := by
  rw [← dictGet_isSome_iff, h]; rfl

theorem dictGet_of_not_mem_keys {α : Type} {l : List (String × α)} {k : String}
    (h : k ∉ l.map Prod.fst) : dictGet l k = none :=
  (dictGet_eq_none_iff l k).mpr h

theorem mem_of_dictGet {α : Type} {l : List (String × α)} {k : String} {v : α}
    (h : dictGet l k = some v) : (k, v) ∈ l := by
  induction l with
  | nil => simp [dictGet] at h
  | cons kv rest ih =>
      obtain ⟨k', v'⟩ := kv
      by_cases hk : k' = k
      · subst hk
        simp only [dictGet, eq_self_iff_true, if_true] at h
        injection h with h
        subst h
        exact List.mem_cons_self _ _
      · simp only [dictGet, if_neg hk] at h
        exact .tail _ (ih h)

theorem dictGet_eq_some_of_mem {α : Type} {l : List (String × α)} {k : String} {v : α}
    (hnd : (l.map Prod.fst).Nodup) (hmem : (k, v) ∈ l) : dictGet l k = some v := by
  induction l with
  | nil => cases hmem
  | cons kv rest ih =>
      obtain ⟨k', v'⟩ := kv
      simp only [List.map_cons, List.nodup_cons] at hnd
      rcases List.mem_cons.mp hmem with heq | hmem'
      · injection heq with h1 h2
        subst h1; subst h2
        simp [dictGet]
      · have hk : k' ≠ k := by
          rintro rfl
          exact hnd.1 (List.mem_map_of_mem Prod.fst hmem')
        simp only [dictGet, if_neg hk]
        exact ih hnd.2 hmem'

theorem keys_updateEntry {α : Type} (k : String) (f : α → α) (l : List (String × α)) :
    (updateEntry k f l).map Prod.fst = l.map Prod.fst := by
  induction l with
  | nil => rfl
  | cons kv rest ih =>
      obtain ⟨k', v⟩ := kv
      by_cases h : k' = k <;> simp [updateEntry, h, ih]

theorem dictGet_updateEntry {α : Type} (k k' : String) (f : α → α) (l : List (String × α)) :
    dictGet (updateEntry k' f l) k =
      if k = k' then (dictGet l k).map f else dictGet l k := by
  induction l with
  | nil => by_cases h : k = k' <;> simp [updateEntry, dictGet, h]
  | cons kv rest ih =>
      obtain ⟨k'', v⟩ := kv
      by_cases h1 : k'' = k'
      · subst h1
        by_cases h2 : k'' = k
        · subst h2; simp [updateEntry, dictGet]
        · have e1 : updateEntry k'' f ((k'', v) :: rest) = (k'', f v) :: rest := by
            simp [updateEntry]
          have e2 : ¬ k = k'' := fun hc => h2 (Eq.symm hc)
          rw [e1]
          simp [dictGet, if_neg h2, if_neg e2]
      · by_cases h2 : k'' = k
        · subst h2
          have hne : ¬ k'' = k' := h1
          simp [updateEntry, dictGet, hne, h1]
        · rw [show updateEntry k' f ((k'', v) :: rest) = (k'', v) :: updateEntry k' f rest
              from by simp [updateEntry, h1]]
          rw [show dictGet ((k'', v) :: updateEntry k' f rest) k = dictGet (updateEntry k' f rest) k
              from by simp [dictGet, h2]]
          rw [ih]
          rw [show dictGet ((k'', v) :: rest) k = dictGet rest k from by simp [dictGet, h2]]

theorem idxOf_append_of_mem {l₁ l₂ : List String} {x : String} (h : x ∈ l₁) :
    idxOf (l₁ ++ l₂) x = idxOf l₁ x := by
  induction l₁ with
  | nil => cases h
  | cons y ys ih =>
      by_cases hy : y = x
      · simp [idxOf, hy]
      · rcases List.mem_cons.mp h with rfl | hm
        · exact absurd rfl hy
        · simp [idxOf, hy, ih hm]

theorem idxOf_lt_length {l : List String} {x : String} (h : x ∈ l) :
    idxOf l x < l.length := by
  induction l with
  | nil => cases h
  | cons y ys ih =>
      by_cases hy : y = x
      · simp [idxOf, hy]
      · rcases List.mem_cons.mp h with rfl | hm
        · exact absurd rfl hy
        · simp only [idxOf, if_neg hy, List.length_cons]
          exact Nat.succ_lt_succ (ih hm)

theorem idxOf_append_of_not_mem {l₁ l₂ : List String} {x : String} (h : x ∉ l₁) :
    idxOf (l₁ ++ l₂) x = l₁.length + idxOf l₂ x := by
  induction l₁ with
  | nil => simp [idxOf]
  | cons y ys ih =>
      have hy : y ≠ x := fun hc => h (hc ▸ List.mem_cons_self y ys)
      have hm : x ∉ ys := fun hc => h (List.mem_cons_of_mem y hc)
      simp only [List.cons_append, idxOf, if_neg hy, List.length_cons]
      have h2 := ih hm
      simp only [List.append_eq] at h2 ⊢
      omega

theorem restartWalk_no_invalidArgument (tr : List String) :
    ∀ (l : List String) (tbl : Table) (msg : String),
      restartWalk tbl tr l ≠ .error (.invalidArgument msg) := by
  intro l
  induction l with
  | nil => intro tbl msg h; simp [restartWalk] at h
  | cons ident rest ih =>
      intro tbl msg h
      unfold restartWalk at h
      by_cases hm : ident ∈ tr
      · rw [if_pos hm] at h
        split at h
        · exact PyError.noConfusion (Except.error.inj h)
        · rename_i st hst
          split at h
          · rename_i e hte
            unfold terminate_join at hte
            split at hte
            · injection hte with hte
              rw [← hte] at h
              exact PyError.noConfusion (Except.error.inj h)
            · cases hte
          · rename_i st' hst'
            split at h
            · rename_i e hw
              injection h with h
              rw [h] at hw
              exact ih _ _ hw
            · cases h
      · rw [if_neg hm] at h
        exact ih _ _ h

theorem restartWalk_spec (tr : List String) :
    ∀ (l : List String) (tbl : Table) (r : List String) (t : Table) (a : List RAction),
      restartWalk tbl tr l = .ok (r, t, a) →
      r = l.filter (fun i => decide (i ∈ tr)) ∧
      a = r.flatMap (fun i => [RAction.terminate i, RAction.spawn i]) := by
  intro l
  induction l with
  | nil =>
      intro tbl r t a h
      simp only [restartWalk, Except.ok.injEq, Prod.mk.injEq] at h
      obtain ⟨h1, h2, h3⟩ := h
      subst h1; subst h3
      simp
  | cons ident rest ih =>
      intro tbl r t a h
      unfold restartWalk at h
      by_cases hm : ident ∈ tr
      · rw [if_pos hm] at h
        split at h
        · cases h
        · rename_i st hst
          split at h
          · cases h
          · rename_i st' hst'
            split at h
            · cases h
            · rename_i r' t' a' hw
              simp only [Except.ok.injEq, Prod.mk.injEq] at h
              obtain ⟨h1, h2, h3⟩ := h
              obtain ⟨ihr, iha⟩ := ih _ _ _ _ hw
              subst h1; subst h2; subst h3
              constructor
              · rw [List.filter_cons, if_pos (decide_eq_true hm), ← ihr]
              · rw [List.flatMap_cons, ← iha]
                simp
      · rw [if_neg hm] at h
        obtain ⟨ihr, iha⟩ := ih _ _ _ _ h
        constructor
        · rw [List.filter_cons, if_neg (by simp [hm])]
          exact ihr
        · exact iha

/-- C1: evaluation of the code at the failing input.  Launching the chain
`a ← b ← c` (`b` depends on `a`, `c` depends on `b`) and then restarting
`a` restarts only `["b", "a"]`: plugin `c`, which depends on `a`
transitively, is missing from the restart set and the restarted list.  The
breadth-first traversal never follows more than one level because the
queue guard `if to_restart.add(dep):` tests the return value of
`set.add`, which is `None`. -/
theorem restart_misses_transitive_dependent :
    chainRestart = some ["b", "a"] ∧ "c" ∉ (["b", "a"] : List String) :=
  ⟨rfl, by decide⟩

/-- C3: evaluation of the code at the failing input.  A requirement `"a"`
that does not match the `depends:` form is warned about but NOT skipped:
its 8-character slice `""` is then resolved as a dependency, so the whole
launch aborts with `missing dependency ''` and spawns nothing, instead of
ignoring the requirement and proceeding. -/
theorem unknown_requirement_aborts :
    (load_plugins [("a", ["a"])]).warnings = ["a"] ∧
    (load_plugins [("a", ["a"])]).outcome = .error (.missingDependency "") ∧
    (load_plugins [("a", ["a"])]).spawned = [] :=
  ⟨rfl, rfl, rfl⟩

/-- C6 (counterexample to the claim as stated): the terminate step of the
restart walk applied to a `PluginState` that was never spawned
(`process is None`) raises an `AttributeError` rather than being a
no-op. -/
theorem terminate_never_spawned_raises :
    terminate_join (PluginState.init "a") =
      .error (.attributeError "NoneType object has no attribute terminate") := rfl

/-- C6 (amended): the terminate step on a `PluginState` whose process
handle is present but already exited does not raise and leaves the state —
and hence the count of live processes — unchanged; only the
never-spawned (`process is None`) case raises. -/
theorem terminate_exited_noop (st : PluginState) (p : Proc)
    (hp : st.process = some p) (ha : p.alive = false) :
    terminate_join st = .ok st := by
  obtain ⟨alive⟩ := p
  subst ha
  obtain ⟨idn, dep, db, pr⟩ := st
  simp only at hp
  subst hp
  rfl

theorem terminate_exited_noop_witness :
    terminate_join ⟨"a", [], [], some ⟨false⟩⟩ = .ok ⟨"a", [], [], some ⟨false⟩⟩ :=
  terminate_exited_noop ⟨"a", [], [], some ⟨false⟩⟩ ⟨false⟩ rfl rfl

/-- C7: `restart_plugin` fails with `InvalidArgumentError('unknown plugin:
…')` exactly when the identifier is not a key of the plugin table; on a
known identifier it never fails with that error. -/
theorem restart_unknown_plugin (tbl : Table) (topo : List String) (p : String) :
    (dictGet tbl p = none →
      restart_plugin tbl topo p = .error (.invalidArgument ("unknown plugin: " ++ p))) ∧
    (dictGet tbl p ≠ none →
      ∀ msg, restart_plugin tbl topo p ≠ .error (.invalidArgument msg)) := by
  constructor
  · intro h
    unfold restart_plugin
    rw [h]
  · intro h msg
    unfold restart_plugin
    cases hg : dictGet tbl p with
    | none => exact absurd hg h
    | some st => exact restartWalk_no_invalidArgument _ _ _ _
  
theorem restart_unknown_plugin_witness :
    restart_plugin [] [] "x" = .error (.invalidArgument ("unknown plugin: " ++ "x")) :=
  (restart_unknown_plugin [] [] "x").1 rfl

/-- C8: a successful `restart_plugin` returns exactly the reverse of the
previously computed launch order restricted to the computed restart set
(so dependents are visited before the dependencies they rely on), and its
action trace performs terminate followed by spawn for each restarted
identifier in that order. -/
theorem restart_follows_reversed_order (tbl : Table) (topo : List String)
    (p : String) (st : PluginState) (hst : dictGet tbl p = some st)
    (r : List String) (t : Table) (a : List RAction)
    (h : restart_plugin tbl topo p = .ok (r, t, a)) :
    r = topo.reverse.filter (fun i => decide (i ∈ restart_set tbl st)) ∧
    a = r.flatMap (fun i => [RAction.terminate i, RAction.spawn i]) := by
  unfold restart_plugin at h
  rw [hst] at h
  exact restartWalk_spec _ _ _ _ _ _ h

theorem restart_follows_reversed_order_witness :
    ["b", "a"] = (["a", "b", "c"] : List String).reverse.filter
        (fun i => decide (i ∈ restart_set tblChain stA)) ∧
    ([.terminate "b", .spawn "b", .terminate "a", .spawn "a"] : List RAction) =
      (["b", "a"] : List String).flatMap (fun i => [RAction.terminate i, RAction.spawn i]) :=
  restart_follows_reversed_order tblChain ["a", "b", "c"] "a" stA rfl
    ["b", "a"] tblChain [.terminate "b", .spawn "b", .terminate "a", .spawn "a"] rfl

theorem dictGet_mapSnd {α β : Type} (g : String → α → β) :
    ∀ (l : List (String × α)) (x : String),
      dictGet (l.map (fun kv => (kv.1, g kv.1 kv.2))) x = (dictGet l x).map (g x) := by
  intro l x
  induction l with
  | nil => rfl
  | cons kv rest ih =>
      obtain ⟨k, v⟩ := kv
      by_cases h : k = x
      · subst h; simp [dictGet]
      · simp [dictGet, h, ih]

theorem keys_filter_subset {α : Type} (q : String × α → Bool) (l : List (String × α)) :
    ((l.filter q).map Prod.fst) ⊆ l.map Prod.fst :=
  ((l.filter_sublist).map Prod.fst).subset

theorem dictGet_filterKey {α : Type} (p : String → Bool) :
    ∀ {l : List (String × α)}, (l.map Prod.fst).Nodup → ∀ (x : String),
      dictGet (l.filter (fun kv => p kv.1)) x = if p x then dictGet l x else none := by
  intro l
  induction l with
  | nil => intro _ x; by_cases h : p x <;> simp [dictGet, h]
  | cons kv rest ih =>
      intro hnd x
      obtain ⟨k, v⟩ := kv
      simp only [List.map_cons, List.nodup_cons] at hnd
      by_cases hk : k = x
      · subst hk
        by_cases hp : p k
        · simp [List.filter_cons, hp, dictGet]
        · simp only [List.filter_cons, hp, Bool.false_eq_true, if_false]
          apply dictGet_of_not_mem_keys
          intro hmem
          exact hnd.1 (keys_filter_subset _ _ hmem)
      · by_cases hp : p k
        · simp only [List.filter_cons, hp, if_true, dictGet, if_neg hk]
          exact ih hnd.2 x
        · simp only [List.filter_cons, hp, Bool.false_eq_true, if_false, dictGet, if_neg hk]
          exact ih hnd.2 x

theorem mem_orderedOf {data : List (String × List String)} {z : String} :
    z ∈ orderedOf data ↔ (z, ([] : List String)) ∈ data := by
  unfold orderedOf
  constructor
  · intro h
    rcases List.mem_map.mp h with ⟨kv, hkv, hz⟩
    rcases List.mem_filter.mp hkv with ⟨hmem, hemp⟩
    obtain ⟨k, ds⟩ := kv
    have hds : ds = [] := List.isEmpty_iff.mp hemp
    subst hds
    cases hz
    exact hmem
  · intro h
    exact List.mem_map.mpr ⟨(z, []), List.mem_filter.mpr ⟨h, rfl⟩, rfl⟩

theorem mem_orderedOf_nodup {data : List (String × List String)}
    (hnd : (data.map Prod.fst).Nodup) {z : String} :
    z ∈ orderedOf data ↔ dictGet data z = some [] := by
  rw [mem_orderedOf]
  exact ⟨dictGet_eq_some_of_mem hnd, mem_of_dictGet⟩

theorem not_mem_orderedOf_of_ne_nil {data : List (String × List String)}
    (hnd : (data.map Prod.fst).Nodup) {z : String} {ds : List String}
    (h : dictGet data z = some ds) (hne : ds ≠ []) : z ∉ orderedOf data := by
  rw [mem_orderedOf_nodup hnd]
  intro hc
  rw [h] at hc
  injection hc with hc
  exact hne hc

theorem keys_pruneData (data : List (String × List String)) :
    (pruneData data).map Prod.fst =
      (data.filter (fun kv => decide (kv.1 ∉ orderedOf data))).map Prod.fst := by
  unfold pruneData
  rw [List.map_map]
  rfl

theorem nodup_keys_pruneData {data : List (String × List String)}
    (hnd : (data.map Prod.fst).Nodup) : ((pruneData data).map Prod.fst).Nodup := by
  rw [keys_pruneData]
  exact List.Nodup.sublist ((data.filter_sublist).map Prod.fst) hnd

theorem dictGet_pruneAux (o : List String) :
    ∀ (l : List (String × List String)) (x : String),
      dictGet ((l.filter (fun kv => decide (kv.1 ∉ o))).map
          (fun kv => (kv.1, kv.2.filter (fun d => decide (d ∉ o))))) x =
        if x ∈ o then none
        else (dictGet l x).map (fun ds => ds.filter (fun d => decide (d ∉ o))) := by
  intro l x
  induction l with
  | nil => by_cases hx : x ∈ o <;> simp [dictGet, hx]
  | cons kv rest ih =>
      obtain ⟨k, v⟩ := kv
      by_cases hko : k ∈ o
      · have hd : decide (k ∉ o) = false := by simp [hko]
        simp only [List.filter_cons, hd, Bool.false_eq_true, if_false]
        rw [ih]
        by_cases hx : x ∈ o
        · rw [if_pos hx, if_pos hx]
        · rw [if_neg hx, if_neg hx]
          have hkx : k ≠ x := fun hc => hx (hc ▸ hko)
          simp [dictGet, hkx]
      · have hd : decide (k ∉ o) = true := by simp [hko]
        simp only [List.filter_cons, hd, if_true, List.map_cons]
        by_cases hkx : k = x
        · subst hkx
          have hx : k ∉ o := hko
          rw [if_neg hx]
          simp [dictGet]
        · have h1 : dictGet ((k, v.filter (fun d => decide (d ∉ o))) ::
              (rest.filter (fun kv => decide (kv.1 ∉ o))).map
                (fun kv => (kv.1, kv.2.filter (fun d => decide (d ∉ o))))) x =
              dictGet ((rest.filter (fun kv => decide (kv.1 ∉ o))).map
                (fun kv => (kv.1, kv.2.filter (fun d => decide (d ∉ o))))) x := by
            simp [dictGet, hkx]
          rw [h1, ih]
          have h2 : dictGet ((k, v) :: rest) x = dictGet rest x := by
            simp [dictGet, hkx]
          rw [h2]

theorem dictGet_pruneData (data : List (String × List String)) (x : String) :
    dictGet (pruneData data) x =
      if x ∈ orderedOf data then none
      else (dictGet data x).map
        (fun ds => ds.filter (fun d => decide (d ∉ orderedOf data))) :=
  dictGet_pruneAux (orderedOf data) data x

theorem length_pruneData_lt {data : List (String × List String)}
    (hne : orderedOf data ≠ []) : (pruneData data).length < data.length := by
  unfold pruneData
  rw [List.length_map]
  apply List.length_filter_lt_length_iff_exists.mpr
  obtain ⟨z, hz⟩ := List.exists_mem_of_ne_nil _ hne
  exact ⟨(z, []), mem_orderedOf.mp hz, by simp [hz]⟩

theorem closed_pruneData {data : List (String × List String)}
    (hcl : ClosedG data) : ClosedG (pruneData data) := by
  intro kv hkv y hy
  unfold pruneData at hkv
  rcases List.mem_map.mp hkv with ⟨kv0, hkv0, rfl⟩
  rcases List.mem_filter.mp hkv0 with ⟨hmem0, _⟩
  rcases List.mem_filter.mp hy with ⟨hy0, hyo⟩
  have hyk : y ∈ data.map Prod.fst := hcl kv0 hmem0 y hy0
  rw [keys_pruneData]
  rcases List.mem_map.mp hyk with ⟨kvy, hkvy, hky⟩
  refine List.mem_map.mpr ⟨kvy, List.mem_filter.mpr ⟨hkvy, ?_⟩, hky⟩
  rw [hky]
  exact hyo

theorem edge_pruneData {data : List (String × List String)} {x y : String}
    (h : EdgeG (pruneData data) x y) : EdgeG data x y := by
  obtain ⟨ds, hds, hy⟩ := h
  rw [dictGet_pruneData] at hds
  by_cases hx : x ∈ orderedOf data
  · rw [if_pos hx] at hds; cases hds
  · rw [if_neg hx] at hds
    cases hg : dictGet data x with
    | none => rw [hg] at hds; cases hds
    | some ds0 =>
        rw [hg] at hds
        injection hds with hds
        subst hds
        exact ⟨ds0, hg, (List.mem_filter.mp hy).1⟩

theorem acyclic_pruneData {data : List (String × List String)}
    (hac : AcyclicG data) : AcyclicG (pruneData data) :=
  fun x hx => hac x (Relation.TransGen.mono (fun _ _ h => edge_pruneData h) hx)

theorem headDep_spec {data : List (String × List String)}
    (hno : ∀ kv ∈ data, kv.2 ≠ []) (hcl : ClosedG data)
    {x : String} (hx : x ∈ data.map Prod.fst) :
    EdgeG data x (headDep data x) ∧ headDep data x ∈ data.map Prod.fst := by
  unfold headDep
  cases hg : dictGet data x with
  | none => exact absurd ((dictGet_eq_none_iff data x).mp hg) (not_not.mpr hx)
  | some ds =>
      cases ds with
      | nil => exact absurd rfl (hno (x, []) (mem_of_dictGet hg))
      | cons d tl =>
          refine ⟨⟨d :: tl, hg, ?_⟩, ?_⟩
          · exact List.mem_cons_self _ _
          · exact hcl (x, d :: tl) (mem_of_dictGet hg) d (List.mem_cons_self _ _)

theorem headDep_iterate_mem {data : List (String × List String)}
    (hno : ∀ kv ∈ data, kv.2 ≠ []) (hcl : ClosedG data) :
    ∀ (n : Nat) (x : String), x ∈ data.map Prod.fst →
      (headDep data)^[n] x ∈ data.map Prod.fst := by
  intro n
  induction n with
  | zero => intro x hx; simpa using hx
  | succ n ih =>
      intro x hx
      rw [Function.iterate_succ_apply']
      exact (headDep_spec hno hcl (ih x hx)).2

theorem headDep_chain {data : List (String × List String)}
    (hno : ∀ kv ∈ data, kv.2 ≠ []) (hcl : ClosedG data) :
    ∀ (n : Nat) (x : String), x ∈ data.map Prod.fst →
      Relation.TransGen (EdgeG data) x ((headDep data)^[n + 1] x) := by
  intro n
  induction n with
  | zero =>
      intro x hx
      rw [Function.iterate_one]
      exact .single (headDep_spec hno hcl hx).1
  | succ n ih =>
      intro x hx
      rw [Function.iterate_succ_apply']
      exact (ih x hx).tail (headDep_spec hno hcl (headDep_iterate_mem hno hcl _ x hx)).1

theorem exists_nil_deps {data : List (String × List String)}
    (hne : data ≠ []) (hcl : ClosedG data) (hac : AcyclicG data) :
    ∃ kv ∈ data, kv.2 = [] := by
  by_contra hno
  push_neg at hno
  have hno' : ∀ kv ∈ data, kv.2 ≠ [] := hno
  obtain ⟨x0, hx0⟩ : ∃ x, x ∈ data.map Prod.fst := by
    cases data with
    | nil => exact absurd rfl hne
    | cons kv rest => exact ⟨kv.1, by simp⟩
  have hcard : ((data.map Prod.fst).toFinset).card
      < (Finset.range ((data.map Prod.fst).length + 1)).card := by
    rw [Finset.card_range]
    exact Nat.lt_succ_of_le (List.toFinset_card_le _)
  obtain ⟨i, _, j, _, hij, hfij⟩ :=
    Finset.exists_ne_map_eq_of_card_lt_of_maps_to hcard
      (fun i _ => List.mem_toFinset.mpr (headDep_iterate_mem hno' hcl i x0 hx0))
  have key : ∀ a b : Nat, a < b → (headDep data)^[a] x0 = (headDep data)^[b] x0 → False := by
    intro a b hab heq
    have hx : (headDep data)^[a] x0 ∈ data.map Prod.fst :=
      headDep_iterate_mem hno' hcl a x0 hx0
    have hch := headDep_chain hno' hcl (b - a - 1) _ hx
    rw [← Function.iterate_add_apply] at hch
    have he : b - a - 1 + 1 + a = b := by omega
    rw [he] at hch
    rw [← heq] at hch
    exact hac _ hch
  rcases lt_or_gt_of_ne hij with h | h
  · exact key i j h hfij
  · exact key j i h hfij.symm

theorem toposortAux_ok :
    ∀ (fuel : Nat) (data : List (String × List String)),
      data.length < fuel →
      (data.map Prod.fst).Nodup → ClosedG data → AcyclicG data →
      ∃ l, toposortAux fuel data = .ok l ∧
        l.Perm (data.map Prod.fst) ∧
        ∀ x y, EdgeG data x y → idxOf l y < idxOf l x := by
  intro fuel
  induction fuel with
  | zero => intro data h; omega
  | succ fuel ih =>
      intro data hlen hnd hcl hac
      by_cases hord : (orderedOf data).isEmpty = true
      · have hordnil : orderedOf data = [] := List.isEmpty_iff.mp hord
        by_cases hdata : data = []
        · subst hdata
          refine ⟨[], rfl, by simp, ?_⟩
          intro x y h
          obtain ⟨ds, hds, _⟩ := h
          cases hds
        · exfalso
          obtain ⟨kv, hkv, hkv2⟩ := exists_nil_deps hdata hcl hac
          have hmem : kv.1 ∈ orderedOf data := by
            apply mem_orderedOf.mpr
            have : (kv.1, ([] : List String)) = kv := by
              obtain ⟨k, ds⟩ := kv
              simp only at hkv2
              rw [hkv2]
            rw [this]
            exact hkv
          rw [hordnil] at hmem
          cases hmem
      · have hordne : orderedOf data ≠ [] := fun hc => hord (by rw [hc]; rfl)
        have hlt := length_pruneData_lt hordne
        obtain ⟨l', hl', hperm', hidx'⟩ :=
          ih (pruneData data) (by omega) (nodup_keys_pruneData hnd)
            (closed_pruneData hcl) (acyclic_pruneData hac)
        have hsortperm : (List.insertionSort (· ≤ ·) (orderedOf data)).Perm (orderedOf data) :=
          List.perm_insertionSort _ _
        refine ⟨List.insertionSort (· ≤ ·) (orderedOf data) ++ l', ?_, ?_, ?_⟩
        · simp only [toposortAux]
          rw [if_neg hord, hl']
        · have hpq : ∀ kv ∈ data, (decide (kv.1 ∉ orderedOf data)) = !kv.2.isEmpty := by
            intro kv hkv
            have hget : dictGet data kv.1 = some kv.2 := dictGet_eq_some_of_mem hnd hkv
            by_cases he : kv.2.isEmpty
            · have h2 : kv.2 = [] := List.isEmpty_iff.mp he
              have hmem : kv.1 ∈ orderedOf data := by
                rw [mem_orderedOf_nodup hnd, hget, h2]
              simp [hmem, he]
            · have hne2 : kv.2 ≠ [] := fun hc => he (by rw [hc]; rfl)
              have hnmem : kv.1 ∉ orderedOf data :=
                not_mem_orderedOf_of_ne_nil hnd hget hne2
              simp [hnmem, he]
          have hperm2 : (orderedOf data ++ (pruneData data).map Prod.fst).Perm
              (data.map Prod.fst) := by
            rw [keys_pruneData, List.filter_congr hpq]
            unfold orderedOf
            rw [← List.map_append]
            exact (List.filter_append_perm _ data).map Prod.fst
          exact ((hsortperm.append hperm').trans hperm2)
        · intro x y hxy
          obtain ⟨ds, hds, hyds⟩ := hxy
          have hdsne : ds ≠ [] := by
            rintro rfl
            cases hyds
          have hxmem : x ∉ orderedOf data := not_mem_orderedOf_of_ne_nil hnd hds hdsne
          have hxsort : x ∉ List.insertionSort (· ≤ ·) (orderedOf data) := fun hc =>
            hxmem (hsortperm.mem_iff.mp hc)
          by_cases hy : y ∈ orderedOf data
          · have hysort : y ∈ List.insertionSort (· ≤ ·) (orderedOf data) :=
              hsortperm.mem_iff.mpr hy
            rw [idxOf_append_of_mem hysort, idxOf_append_of_not_mem hxsort]
            have h1 : idxOf (List.insertionSort (· ≤ ·) (orderedOf data)) y
                < (List.insertionSort (· ≤ ·) (orderedOf data)).length :=
              idxOf_lt_length hysort
            omega
          · have hysort : y ∉ List.insertionSort (· ≤ ·) (orderedOf data) := fun hc =>
              hy (hsortperm.mem_iff.mp hc)
            have hedge' : EdgeG (pruneData data) x y := by
              refine ⟨ds.filter (fun d => decide (d ∉ orderedOf data)), ?_, ?_⟩
              · rw [dictGet_pruneData, if_neg hxmem, hds]
                rfl
              · exact List.mem_filter.mpr ⟨hyds, by simp [hy]⟩
            have h2 := hidx' x y hedge'
            rw [idxOf_append_of_not_mem hxsort, idxOf_append_of_not_mem hysort]
            omega

theorem toposortAux_cycle (c : List String) (sigma : String → String) (hc : c ≠ []) :
    ∀ (fuel : Nat) (data : List (String × List String)),
      (data.map Prod.fst).Nodup →
      (∀ x ∈ c, sigma x ∈ c ∧ EdgeG data x (sigma x)) →
      ∃ e, toposortAux fuel data = .error e ∧ ∀ x ∈ c, x ∈ e := by
  intro fuel
  induction fuel with
  | zero =>
      intro data _ hcyc
      refine ⟨data.map Prod.fst, rfl, ?_⟩
      intro x hx
      obtain ⟨_, ds, hds, _⟩ := hcyc x hx
      exact mem_keys_of_dictGet hds
  | succ fuel ih =>
      intro data hnd hcyc
      have hnotord : ∀ x ∈ c, x ∉ orderedOf data := by
        intro x hx
        obtain ⟨_, ds, hds, hsds⟩ := hcyc x hx
        refine not_mem_orderedOf_of_ne_nil hnd hds ?_
        rintro rfl
        cases hsds
      by_cases hord : (orderedOf data).isEmpty = true
      · have hdne : ¬ data.isEmpty = true := by
          obtain ⟨x0, hx0⟩ := List.exists_mem_of_ne_nil c hc
          obtain ⟨_, ds, hds, _⟩ := hcyc x0 hx0
          have hk := mem_keys_of_dictGet hds
          intro he
          rw [List.isEmpty_iff.mp he] at hk
          cases hk
        refine ⟨data.map Prod.fst, ?_, ?_⟩
        · simp only [toposortAux]
          rw [if_pos hord, if_neg hdne]
        · intro x hx
          obtain ⟨_, ds, hds, _⟩ := hcyc x hx
          exact mem_keys_of_dictGet hds
      · have hcyc' : ∀ x ∈ c, sigma x ∈ c ∧ EdgeG (pruneData data) x (sigma x) := by
          intro x hx
          obtain ⟨hsc, ds, hds, hsds⟩ := hcyc x hx
          refine ⟨hsc, ds.filter (fun d => decide (d ∉ orderedOf data)), ?_, ?_⟩
          · rw [dictGet_pruneData, if_neg (hnotord x hx), hds]
            rfl
          · exact List.mem_filter.mpr ⟨hsds, by simp [hnotord _ hsc]⟩
        obtain ⟨e, he, hce⟩ := ih (pruneData data) (nodup_keys_pruneData hnd) hcyc'
        refine ⟨e, ?_, hce⟩
        simp only [toposortAux]
        rw [if_neg hord, he]

theorem toposortAux_perm :
    ∀ (fuel : Nat) (d₁ d₂ : List (String × List String)), d₁.Perm d₂ →
      (∃ l, toposortAux fuel d₁ = .ok l ∧ toposortAux fuel d₂ = .ok l) ∨
      (∃ e₁ e₂, toposortAux fuel d₁ = .error e₁ ∧ toposortAux fuel d₂ = .error e₂) := by
  intro fuel
  induction fuel with
  | zero => intro d₁ d₂ _; exact .inr ⟨_, _, rfl, rfl⟩
  | succ fuel ih =>
      intro d₁ d₂ hp
      have hordp : (orderedOf d₁).Perm (orderedOf d₂) := (hp.filter _).map _
      have hsort : List.insertionSort (· ≤ ·) (orderedOf d₁)
          = List.insertionSort (· ≤ ·) (orderedOf d₂) :=
        @List.eq_of_perm_of_sorted String (· ≤ ·) _ _ _
          ((List.perm_insertionSort _ _).trans
            (hordp.trans (List.perm_insertionSort _ _).symm))
          (List.sorted_insertionSort _ _) (List.sorted_insertionSort _ _)
      by_cases hord : (orderedOf d₁).isEmpty = true
      · have hord2 : (orderedOf d₂).isEmpty = true := by
          rw [List.isEmpty_iff] at hord ⊢
          have h2 := hordp
          rw [hord] at h2
          exact h2.symm.eq_nil
        by_cases hd1 : d₁.isEmpty = true
        · have hd2 : d₂.isEmpty = true := by
            rw [List.isEmpty_iff] at hd1 ⊢
            have h2 := hp
            rw [hd1] at h2
            exact h2.symm.eq_nil
          left
          refine ⟨[], ?_, ?_⟩
          · simp only [toposortAux]; rw [if_pos hord, if_pos hd1]
          · simp only [toposortAux]; rw [if_pos hord2, if_pos hd2]
        · have hd2 : ¬ d₂.isEmpty = true := by
            intro hc
            apply hd1
            rw [List.isEmpty_iff] at hc ⊢
            have h2 := hp
            rw [hc] at h2
            exact h2.eq_nil
          right
          refine ⟨d₁.map Prod.fst, d₂.map Prod.fst, ?_, ?_⟩
          · simp only [toposortAux]; rw [if_pos hord, if_neg hd1]
          · simp only [toposortAux]; rw [if_pos hord2, if_neg hd2]
      · have hord2 : ¬ (orderedOf d₂).isEmpty = true := by
          intro hc
          apply hord
          rw [List.isEmpty_iff] at hc ⊢
          have h2 := hordp
          rw [hc] at h2
          exact h2.eq_nil
        have hmemiff : ∀ z, z ∈ orderedOf d₁ ↔ z ∈ orderedOf d₂ := fun z => hordp.mem_iff
        have hpp : (pruneData d₁).Perm (pruneData d₂) := by
          unfold pruneData
          have hkey : ∀ kv ∈ d₂, (decide (kv.1 ∉ orderedOf d₂)) = (decide (kv.1 ∉ orderedOf d₁)) := by
            intro kv _
            apply decide_eq_decide.mpr
            exact not_congr (hmemiff kv.1).symm
          rw [List.filter_congr hkey]
          have hval : ∀ kv ∈ d₂.filter (fun kv => decide (kv.1 ∉ orderedOf d₁)),
              (kv.1, kv.2.filter (fun d => decide (d ∉ orderedOf d₂)))
                = (kv.1, kv.2.filter (fun d => decide (d ∉ orderedOf d₁))) := by
            intro kv _
            have : ∀ d ∈ kv.2, (decide (d ∉ orderedOf d₂)) = (decide (d ∉ orderedOf d₁)) := by
              intro d _
              apply decide_eq_decide.mpr
              exact not_congr (hmemiff d).symm
            rw [List.filter_congr this]
          rw [List.map_congr_left hval]
          exact (hp.filter _).map _
        rcases ih (pruneData d₁) (pruneData d₂) hpp with ⟨l, h1, h2⟩ | ⟨e₁, e₂, h1, h2⟩
        · left
          refine ⟨List.insertionSort (· ≤ ·) (orderedOf d₁) ++ l, ?_, ?_⟩
          · simp only [toposortAux]; rw [if_neg hord, h1]
          · simp only [toposortAux]; rw [if_neg hord2, h2, ← hsort]
        · right
          refine ⟨e₁, e₂, ?_, ?_⟩
          · simp only [toposortAux]; rw [if_neg hord, h1]
          · simp only [toposortAux]; rw [if_neg hord2, h2]

theorem dictGet_selfFiltered (data : List (String × List String)) (x : String) :
    dictGet (selfFiltered data) x =
      (dictGet data x).map (fun ds => ds.filter (fun d => decide (d ≠ x))) := by
  unfold selfFiltered
  induction data with
  | nil => rfl
  | cons kv rest ih =>
      obtain ⟨k, v⟩ := kv
      by_cases h : k = x
      · subst h; simp [dictGet]
      · simp only [List.map_cons, dictGet, if_neg h]
        exact ih

theorem keys_selfFiltered (data : List (String × List String)) :
    (selfFiltered data).map Prod.fst = data.map Prod.fst := by
  unfold selfFiltered
  rw [List.map_map]
  rfl

theorem closed_selfFiltered {data : List (String × List String)}
    (hcl : ClosedG data) : ClosedG (selfFiltered data) := by
  intro kv hkv y hy
  unfold selfFiltered at hkv
  rcases List.mem_map.mp hkv with ⟨kv0, hkv0, rfl⟩
  rw [keys_selfFiltered]
  exact hcl kv0 hkv0 y (List.mem_filter.mp hy).1

theorem edge_of_selfFiltered {data : List (String × List String)} {x y : String}
    (h : EdgeG (selfFiltered data) x y) : EdgeG data x y := by
  obtain ⟨ds, hds, hy⟩ := h
  rw [dictGet_selfFiltered] at hds
  cases hg : dictGet data x with
  | none => rw [hg] at hds; cases hds
  | some ds0 =>
      rw [hg] at hds
      injection hds with hds
      subst hds
      exact ⟨ds0, hg, (List.mem_filter.mp hy).1⟩

theorem edge_selfFiltered_of {data : List (String × List String)} {x y : String}
    (h : EdgeG data x y) (hne : y ≠ x) : EdgeG (selfFiltered data) x y := by
  obtain ⟨ds, hds, hy⟩ := h
  refine ⟨ds.filter (fun d => decide (d ≠ x)), ?_, ?_⟩
  · rw [dictGet_selfFiltered, hds]
    rfl
  · exact List.mem_filter.mpr ⟨hy, by simp [hne]⟩

theorem acyclic_selfFiltered {data : List (String × List String)}
    (hac : AcyclicG data) : AcyclicG (selfFiltered data) :=
  fun x hx => hac x (Relation.TransGen.mono (fun _ _ h => edge_of_selfFiltered h) hx)

theorem extraItems_nil {data1 : List (String × List String)}
    (hcl : ClosedG data1) : extraItems data1 = [] := by
  unfold extraItems
  rw [List.filter_eq_nil_iff.mpr ?_]
  · rfl
  · intro d hd
    rcases List.mem_flatten.mp hd with ⟨ds, hds, hdds⟩
    rcases List.mem_map.mp hds with ⟨kv, hkv, rfl⟩
    simp [hcl kv hkv d hdds]

theorem fullData_eq {data : List (String × List String)}
    (hcl : ClosedG data) : fullData data = selfFiltered data := by
  unfold fullData
  rw [extraItems_nil (closed_selfFiltered hcl)]
  simp

theorem toposort_flatten_ok {g : List (String × List String)}
    (hnd : (g.map Prod.fst).Nodup) (hcl : ClosedG g) (hac : AcyclicG g) :
    ∃ l, toposort_flatten g = .ok l ∧ l.Perm (g.map Prod.fst) ∧
      ∀ x y, EdgeG g x y → idxOf l y < idxOf l x := by
  by_cases hg : g = []
  · subst hg
    refine ⟨[], rfl, by simp, ?_⟩
    intro x y h
    obtain ⟨ds, hds, _⟩ := h
    cases hds
  · have hne : ¬ g.isEmpty = true := fun hc => hg (List.isEmpty_iff.mp hc)
    have hfd : fullData g = selfFiltered g := fullData_eq hcl
    have hnd1 : ((selfFiltered g).map Prod.fst).Nodup := by
      rw [keys_selfFiltered]; exact hnd
    obtain ⟨l, hl, hperm, hidx⟩ :=
      toposortAux_ok ((fullData g).length + 1) (selfFiltered g)
        (by rw [hfd]; omega) hnd1 (closed_selfFiltered hcl) (acyclic_selfFiltered hac)
    refine ⟨l, ?_, ?_, ?_⟩
    · unfold toposort_flatten
      rw [if_neg hne, hfd]
      rw [hfd] at hl
      exact hl
    · rw [← keys_selfFiltered g]
      exact hperm
    · intro x y hxy
      have hyx : y ≠ x := by
        rintro rfl
        exact hac _ (.single hxy)
      exact hidx x y (edge_selfFiltered_of hxy hyx)

theorem toposort_flatten_cycle {g : List (String × List String)}
    (c : List String) (sigma : String → String)
    (hnd : (g.map Prod.fst).Nodup) (hcl : ClosedG g) (hc : c ≠ [])
    (hcyc : ∀ x ∈ c, sigma x ∈ c ∧ sigma x ≠ x ∧ EdgeG g x (sigma x)) :
    ∃ e, toposort_flatten g = .error e ∧ ∀ x ∈ c, x ∈ e := by
  have hgne : g ≠ [] := by
    obtain ⟨x0, hx0⟩ := List.exists_mem_of_ne_nil c hc
    obtain ⟨_, _, ds, hds, _⟩ := hcyc x0 hx0
    intro hgnil
    rw [hgnil] at hds
    cases hds
  have hne : ¬ g.isEmpty = true := fun hcon => hgne (List.isEmpty_iff.mp hcon)
  have hfd : fullData g = selfFiltered g := fullData_eq hcl
  have hnd1 : ((selfFiltered g).map Prod.fst).Nodup := by
    rw [keys_selfFiltered]; exact hnd
  have hcyc1 : ∀ x ∈ c, sigma x ∈ c ∧ EdgeG (selfFiltered g) x (sigma x) := by
    intro x hx
    obtain ⟨hsc, hsne, hedge⟩ := hcyc x hx
    exact ⟨hsc, edge_selfFiltered_of hedge hsne⟩
  obtain ⟨e, he, hce⟩ :=
    toposortAux_cycle c sigma hc ((fullData g).length + 1) (selfFiltered g) hnd1 hcyc1
  refine ⟨e, ?_, hce⟩
  unfold toposort_flatten
  rw [if_neg hne, hfd]
  rw [hfd] at he
  exact he

theorem processReq_ok {identifier req : String} {w w' : List String} {tbl tbl' : Table}
    (h : processReq identifier req (w, tbl) = (w', .ok tbl')) :
    (dictGet tbl (pyDrop req 8)).isSome = true ∧
    tbl'.map Prod.fst = tbl.map Prod.fst ∧
    ∀ z, dictGet tbl' z = (dictGet tbl z).map (fun st =>
      { st with
        dependencies :=
          if z = identifier then addElem st.dependencies (pyDrop req 8) else st.dependencies,
        depended_by :=
          if z = pyDrop req 8 then addElem st.depended_by identifier else st.depended_by }) := by
  unfold processReq at h
  by_cases hg : (dictGet tbl (pyDrop req 8)).isSome
  · rw [if_pos hg] at h
    injection h with h1 h2
    injection h2 with h2
    refine ⟨hg, ?_, ?_⟩
    · rw [← h2, keys_updateEntry, keys_updateEntry]
    · intro z
      rw [← h2, dictGet_updateEntry, dictGet_updateEntry]
      by_cases hz1 : z = identifier
      · by_cases hz2 : z = pyDrop req 8
        · have hid : identifier = pyDrop req 8 := hz1 ▸ hz2
          cases hst : dictGet tbl z <;> simp [hz1, hz2, hst, hid]
        · have hid : ¬ identifier = pyDrop req 8 := fun hc => hz2 (hz1.trans hc)
          cases hst : dictGet tbl z <;> simp [hz1, hz2, hst, hid]
      · by_cases hz2 : z = pyDrop req 8
        · have hid : ¬ pyDrop req 8 = identifier := fun hc => hz1 (hz2.trans hc)
          cases hst : dictGet tbl z <;> simp [hz1, hz2, hst, hid]
        · cases hst : dictGet tbl z <;> simp [hz1, hz2, hst]
  · rw [if_neg hg] at h
    injection h with h1 h2
    cases h2

theorem processReq_preserves {identifier req : String} {w w' : List String} {tbl tbl' : Table}
    (h : processReq identifier req (w, tbl) = (w', .ok tbl'))
    (hid : identifier ∈ tbl.map Prod.fst)
    (hcl : TableClosed tbl) (hmir : MirrorTable tbl) :
    tbl'.map Prod.fst = tbl.map Prod.fst ∧
    TableClosed tbl' ∧ MirrorTable tbl' ∧
    (∀ z st, z ≠ identifier → dictGet tbl z = some st →
      ∃ st', dictGet tbl' z = some st' ∧ st'.dependencies = st.dependencies) := by
  obtain ⟨hg, hkeys, hform⟩ := processReq_ok h
  have hdepmem : pyDrop req 8 ∈ tbl.map Prod.fst := (dictGet_isSome_iff tbl _).mp hg
  refine ⟨hkeys, ?_, ?_, ?_⟩
  · intro z st' hz
    rw [hform z] at hz
    cases hgz : dictGet tbl z with
    | none => rw [hgz] at hz; cases hz
    | some st =>
        rw [hgz] at hz
        injection hz with hz
        subst hz
        rw [hkeys]
        constructor
        · intro y hy
          dsimp only at hy
          by_cases hzid : z = identifier
          · rw [if_pos hzid] at hy
            rcases mem_addElem.mp hy with h1 | h1
            · exact (hcl z st hgz).1 y h1
            · subst h1; exact hdepmem
          · rw [if_neg hzid] at hy
            exact (hcl z st hgz).1 y hy
        · intro y hy
          dsimp only at hy
          by_cases hzdep : z = pyDrop req 8
          · rw [if_pos hzdep] at hy
            rcases mem_addElem.mp hy with h1 | h1
            · exact (hcl z st hgz).2 y h1
            · subst h1; exact hid
          · rw [if_neg hzdep] at hy
            exact (hcl z st hgz).2 y hy
  · intro x y stx sty hx hy
    rw [hform x] at hx
    rw [hform y] at hy
    cases hgx : dictGet tbl x with
    | none => rw [hgx] at hx; cases hx
    | some sx =>
        cases hgy : dictGet tbl y with
        | none => rw [hgy] at hy; cases hy
        | some sy =>
            rw [hgx] at hx; rw [hgy] at hy
            injection hx with hx
            injection hy with hy
            subst hx; subst hy
            have hbase := hmir x y sx sy hgx hgy
            dsimp only
            by_cases hx1 : x = identifier
            · rw [if_pos hx1]
              by_cases hy2 : y = pyDrop req 8
              · rw [if_pos hy2]
                constructor
                · intro _; exact mem_addElem.mpr (.inr hx1)
                · intro _; exact mem_addElem.mpr (.inr hy2)
              · rw [if_neg hy2]
                constructor
                · intro hmem
                  rcases mem_addElem.mp hmem with h1 | h1
                  · exact hbase.mp h1
                  · exact absurd h1 hy2
                · intro hmem
                  exact mem_addElem.mpr (.inl (hbase.mpr hmem))
            · rw [if_neg hx1]
              by_cases hy2 : y = pyDrop req 8
              · rw [if_pos hy2]
                constructor
                · intro hmem; exact mem_addElem.mpr (.inl (hbase.mp hmem))
                · intro hmem
                  rcases mem_addElem.mp hmem with h1 | h1
                  · exact hbase.mpr h1
                  · exact absurd h1 hx1
              · rw [if_neg hy2]
                exact hbase
  · intro z st hz hget
    have hthis := hform z
    rw [hget] at hthis
    refine ⟨_, hthis, ?_⟩
    dsimp only
    rw [if_neg hz]

theorem processReqs_inv (identifier : String) :
    ∀ (reqs : List String) (w : List String) (tbl : Table)
      (w'' : List String) (tbl'' : Table),
      processReqs identifier reqs w tbl = (w'', .ok tbl'') →
      identifier ∈ tbl.map Prod.fst →
      TableClosed tbl → MirrorTable tbl →
      tbl''.map Prod.fst = tbl.map Prod.fst ∧
      TableClosed tbl'' ∧ MirrorTable tbl'' ∧
      (∀ z st, z ≠ identifier → dictGet tbl z = some st →
        ∃ st', dictGet tbl'' z = some st' ∧ st'.dependencies = st.dependencies) := by
  intro reqs
  induction reqs with
  | nil =>
      intro w tbl w'' tbl'' h _ hcl hmir
      simp only [processReqs, Prod.mk.injEq, Except.ok.injEq] at h
      obtain ⟨_, h2⟩ := h
      subst h2
      exact ⟨rfl, hcl, hmir, fun z st _ hget => ⟨st, hget, rfl⟩⟩
  | cons req rest ih =>
      intro w tbl w'' tbl'' h hid hcl hmir
      unfold processReqs at h
      split at h
      · cases h
      · rename_i w2 tbl2 hpr
        obtain ⟨hkeys2, hcl2, hmir2, hstab2⟩ := processReq_preserves hpr hid hcl hmir
        obtain ⟨hkeys3, hcl3, hmir3, hstab3⟩ :=
          ih _ _ _ _ h (by rw [hkeys2]; exact hid) hcl2 hmir2
        refine ⟨hkeys3.trans hkeys2, hcl3, hmir3, ?_⟩
        intro z st hz hget
        obtain ⟨st2, hget2, hd2⟩ := hstab2 z st hz hget
        obtain ⟨st3, hget3, hd3⟩ := hstab3 z st2 hz hget2
        exact ⟨st3, hget3, hd3.trans hd2⟩

theorem buildLoop_inv :
    ∀ (records : List (String × List String)) (tbl : Table) (w : List String)
      (acc : List (String × List String)) (w' : List String) (tbl' : Table)
      (deps : List (String × List String)),
      buildLoop tbl records w acc = (w', .ok (tbl', deps)) →
      (∀ r ∈ records, r.1 ∈ tbl.map Prod.fst) →
      (records.map Prod.fst).Nodup →
      (∀ p ∈ acc, p.1 ∉ records.map Prod.fst) →
      TableClosed tbl → MirrorTable tbl → DepsMatch tbl acc →
      tbl'.map Prod.fst = tbl.map Prod.fst ∧
      deps.map Prod.fst = acc.map Prod.fst ++ records.map Prod.fst ∧
      TableClosed tbl' ∧ MirrorTable tbl' ∧ DepsMatch tbl' deps := by
  intro records
  induction records with
  | nil =>
      intro tbl w acc w' tbl' deps h _ _ _ hcl hmir hdm
      simp only [buildLoop, Prod.mk.injEq, Except.ok.injEq] at h
      obtain ⟨_, h2, h3⟩ := h
      subst h2; subst h3
      exact ⟨rfl, by simp, hcl, hmir, hdm⟩
  | cons rc rest ih =>
      intro tbl w acc w' tbl' deps h hmemk hnd hdisj hcl hmir hdm
      obtain ⟨identifier, reqs⟩ := rc
      unfold buildLoop at h
      split at h
      · cases h
      · rename_i w2 tbl2 hpr
        have hidmem : identifier ∈ tbl.map Prod.fst :=
          hmemk (identifier, reqs) (List.mem_cons_self _ _)
        obtain ⟨hkeys2, hcl2, hmir2, hstab2⟩ :=
          processReqs_inv identifier reqs w tbl w2 tbl2 hpr hidmem hcl hmir
        have hidmem2 : identifier ∈ tbl2.map Prod.fst := by rw [hkeys2]; exact hidmem
        obtain ⟨st2, hst2⟩ : ∃ st2, dictGet tbl2 identifier = some st2 := by
          cases hg : dictGet tbl2 identifier with
          | none => exact absurd ((dictGet_eq_none_iff _ _).mp hg) (not_not.mpr hidmem2)
          | some st2 => exact ⟨st2, rfl⟩
        simp only [List.map_cons, List.nodup_cons] at hnd
        have hdisj' : ∀ p ∈ acc ++ [(identifier,
            ((dictGet tbl2 identifier).getD (PluginState.init identifier)).dependencies)],
            p.1 ∉ rest.map Prod.fst := by
          intro p hp
          rcases List.mem_append.mp hp with hp | hp
          · intro hc
            exact hdisj p hp (List.mem_cons_of_mem _ hc)
          · rcases List.mem_cons.mp hp with hp | hp
            · rw [hp]
              exact hnd.1
            · cases hp
        have hdm' : DepsMatch tbl2 (acc ++ [(identifier,
            ((dictGet tbl2 identifier).getD (PluginState.init identifier)).dependencies)]) := by
          intro p hp
          rcases List.mem_append.mp hp with hp | hp
          · obtain ⟨st, hget, hdeps⟩ := hdm p hp
            have hne : p.1 ≠ identifier := fun hc =>
              hdisj p hp (hc ▸ List.mem_cons_self _ _)
            obtain ⟨st', hget', hdeps'⟩ := hstab2 p.1 st hne hget
            exact ⟨st', hget', hdeps'.trans hdeps⟩
          · rcases List.mem_cons.mp hp with hp | hp
            · rw [hp]
              exact ⟨st2, hst2, by rw [hst2]; rfl⟩
            · cases hp
        obtain ⟨hk3, hdk3, hcl3, hmir3, hdm3⟩ :=
          ih tbl2 w2 _ w' tbl' deps h
            (fun r hr => by rw [hkeys2]; exact hmemk r (List.mem_cons_of_mem _ hr))
            hnd.2 hdisj' hcl2 hmir2 hdm'
        refine ⟨hk3.trans hkeys2, ?_, hcl3, hmir3, hdm3⟩
        rw [hdk3]
        simp

theorem buildGraph_inv {records : List (String × List String)} {w : List String}
    {tbl : Table} {deps : List (String × List String)}
    (hnd : (records.map Prod.fst).Nodup)
    (hb : buildGraph records = (w, .ok (tbl, deps))) :
    tbl.map Prod.fst = records.map Prod.fst ∧
    deps.map Prod.fst = records.map Prod.fst ∧
    TableClosed tbl ∧ MirrorTable tbl ∧ DepsMatch tbl deps := by
  unfold buildGraph at hb
  have hkeys0 : (records.map (fun r => (r.1, PluginState.init r.1))).map Prod.fst
      = records.map Prod.fst := by
    rw [List.map_map]; rfl
  have hcl0 : TableClosed (records.map (fun r => (r.1, PluginState.init r.1))) := by
    intro x st hget
    have hmem := mem_of_dictGet hget
    rcases List.mem_map.mp hmem with ⟨r, _, hr⟩
    injection hr with _ hr2
    constructor <;> (intro y hy; rw [← hr2] at hy; cases hy)
  have hmir0 : MirrorTable (records.map (fun r => (r.1, PluginState.init r.1))) := by
    intro x y stx sty hx hy
    rcases List.mem_map.mp (mem_of_dictGet hx) with ⟨rx, _, hrx⟩
    rcases List.mem_map.mp (mem_of_dictGet hy) with ⟨ry, _, hry⟩
    injection hrx with _ hrx2
    injection hry with _ hry2
    rw [← hrx2, ← hry2]
    simp [PluginState.init]
  obtain ⟨h1, h2, h3, h4, h5⟩ :=
    buildLoop_inv records _ [] [] w tbl deps hb
      (fun r hr => by rw [hkeys0]; exact List.mem_map_of_mem Prod.fst hr)
      hnd (by simp) hcl0 hmir0 (by intro p hp; cases hp)
  refine ⟨h1.trans hkeys0, ?_, h3, h4, h5⟩
  rw [h2]; simp

theorem buildGraph_deps_closed {records : List (String × List String)} {w : List String}
    {tbl : Table} {deps : List (String × List String)}
    (hnd : (records.map Prod.fst).Nodup)
    (hb : buildGraph records = (w, .ok (tbl, deps))) : ClosedG deps := by
  obtain ⟨htk, hdk, hcl, _, hdm⟩ := buildGraph_inv hnd hb
  intro kv hkv y hy
  obtain ⟨st, hget, hdeps⟩ := hdm kv hkv
  have hmem : y ∈ tbl.map Prod.fst := (hcl kv.1 st hget).1 y (by rw [hdeps]; exact hy)
  rw [hdk, ← htk]
  exact hmem

theorem processReqs_ok_keys (identifier : String) :
    ∀ (reqs : List String) (w : List String) (tbl : Table)
      (w'' : List String) (tbl'' : Table),
      processReqs identifier reqs w tbl = (w'', .ok tbl'') →
      tbl''.map Prod.fst = tbl.map Prod.fst ∧
      ∀ req ∈ reqs, (pyDrop req 8) ∈ tbl.map Prod.fst := by
  intro reqs
  induction reqs with
  | nil =>
      intro w tbl w'' tbl'' h
      simp only [processReqs, Prod.mk.injEq, Except.ok.injEq] at h
      obtain ⟨_, h2⟩ := h
      subst h2
      exact ⟨rfl, by intro req hreq; cases hreq⟩
  | cons req rest ih =>
      intro w tbl w'' tbl'' h
      unfold processReqs at h
      split at h
      · cases h
      · rename_i w2 tbl2 hpr
        obtain ⟨hg, hkeys2, _⟩ := processReq_ok hpr
        obtain ⟨hkeys3, hreqs3⟩ := ih _ _ _ _ h
        refine ⟨hkeys3.trans hkeys2, ?_⟩
        intro r hr
        rcases List.mem_cons.mp hr with hr | hr
        · rw [hr]
          exact (dictGet_isSome_iff tbl _).mp hg
        · rw [← hkeys2]
          exact hreqs3 r hr

theorem buildLoop_ok_reqs :
    ∀ (records : List (String × List String)) (tbl : Table) (w : List String)
      (acc : List (String × List String)) (w' : List String) (tbl' : Table)
      (deps : List (String × List String)),
      buildLoop tbl records w acc = (w', .ok (tbl', deps)) →
      ∀ r ∈ records, ∀ req ∈ r.2, (pyDrop req 8) ∈ tbl.map Prod.fst := by
  intro records
  induction records with
  | nil =>
      intro tbl w acc w' tbl' deps _ r hr
      cases hr
  | cons rc rest ih =>
      intro tbl w acc w' tbl' deps h r hr req hreq
      obtain ⟨identifier, reqs⟩ := rc
      unfold buildLoop at h
      split at h
      · cases h
      · rename_i w2 tbl2 hpr
        obtain ⟨hkeys2, hreqs2⟩ := processReqs_ok_keys identifier reqs w tbl w2 tbl2 hpr
        rcases List.mem_cons.mp hr with hr | hr
        · subst hr
          exact hreqs2 req hreq
        · rw [← hkeys2]
          exact ih tbl2 w2 _ w' tbl' deps h r hr req hreq

theorem load_plugins_eq_of_build_ok {records : List (String × List String)}
    {w : List String} {tbl : Table} {deps : List (String × List String)}
    (hb : buildGraph records = (w, .ok (tbl, deps))) :
    load_plugins records =
      match toposort_flatten deps with
      | .error rem => ⟨w, .error (.cyclicDependency rem), []⟩
      | .ok topo => ⟨w, .ok (spawnAll (discardSelfDeps tbl) topo, topo), topo⟩ := by
  unfold load_plugins
  rw [hb]

theorem load_plugins_eq_of_build_err {records : List (String × List String)}
    {w : List String} {d : String}
    (hb : buildGraph records = (w, .error d)) :
    load_plugins records = ⟨w, .error (.missingDependency d), []⟩ := by
  unfold load_plugins
  rw [hb]

theorem pyDrop_depends (D : String) : pyDrop ("depends:" ++ D) 8 = D := by
  unfold pyDrop
  obtain ⟨l⟩ := D
  rw [String.data_append]
  rw [show (8 : Nat) = ("depends:").data.length from rfl]
  rw [List.drop_left]

/-- C2: on every accepted record set whose dependency graph is acyclic,
`load_plugins` succeeds and returns a launch order `topo` that is a
permutation of the graph's identifiers (each appears exactly once) in
which every declared dependency is placed strictly before its
dependent. -/
theorem load_plugins_topo_linearizes (records : List (String × List String))
    (w : List String) (tbl : Table) (deps : List (String × List String))
    (hnd : (records.map Prod.fst).Nodup)
    (hb : buildGraph records = (w, .ok (tbl, deps)))
    (hac : AcyclicG deps) :
    ∃ tbl' topo, (load_plugins records).outcome = .ok (tbl', topo) ∧
      topo.Perm (deps.map Prod.fst) ∧
      ∀ x y, EdgeG deps x y → idxOf topo y < idxOf topo x := by
  have hdk : (deps.map Prod.fst).Nodup := by
    rw [(buildGraph_inv hnd hb).2.1]; exact hnd
  have hcld : ClosedG deps := buildGraph_deps_closed hnd hb
  obtain ⟨l, hl, hperm, hidx⟩ := toposort_flatten_ok hdk hcld hac
  refine ⟨spawnAll (discardSelfDeps tbl) l, l, ?_, hperm, hidx⟩
  rw [load_plugins_eq_of_build_ok hb, hl]

theorem no_edge_singleton (x y : String) :
    ¬ EdgeG [("a", ([] : List String))] x y := by
  rintro ⟨ds, hds, hy⟩
  simp only [dictGet] at hds
  by_cases hp : "a" = x
  · rw [if_pos hp] at hds
    injection hds with hds
    subst hds
    cases hy
  · rw [if_neg hp] at hds
    cases hds

theorem acyclic_singleton : AcyclicG [("a", ([] : List String))] := by
  intro x h
  have hgen : ∀ y z : String,
      Relation.TransGen (EdgeG [("a", ([] : List String))]) y z → False := by
    intro y z h2
    induction h2 with
    | single he => exact no_edge_singleton _ _ he
    | tail _ he _ => exact no_edge_singleton _ _ he
  exact hgen x x h

theorem load_plugins_topo_linearizes_witness :
    ∃ tbl' topo, (load_plugins [("a", [])]).outcome = .ok (tbl', topo) ∧
      topo.Perm ([("a", ([] : List String))].map Prod.fst) ∧
      ∀ x y, EdgeG [("a", ([] : List String))] x y → idxOf topo y < idxOf topo x :=
  load_plugins_topo_linearizes [("a", [])] [] [("a", PluginState.init "a")]
    [("a", [])] (by decide) rfl acyclic_singleton

/-- C4: if any accepted plugin declares `depends:D` for an identifier `D`
outside the accepted set, `load_plugins` fails with a missing-dependency
error and spawns no process. -/
theorem load_plugins_missing_dependency (records : List (String × List String))
    (i D : String) (reqs : List String)
    (hmem : (i, reqs) ∈ records) (hreq : ("depends:" ++ D) ∈ reqs)
    (hD : D ∉ records.map Prod.fst) :
    (∃ d, (load_plugins records).outcome = .error (.missingDependency d)) ∧
    (load_plugins records).spawned = [] := by
  rcases hbg : buildGraph records with ⟨w, res⟩
  cases res with
  | error d =>
      constructor
      · exact ⟨d, by rw [load_plugins_eq_of_build_err hbg]⟩
      · rw [load_plugins_eq_of_build_err hbg]
  | ok td =>
      obtain ⟨tbl, deps⟩ := td
      exfalso
      unfold buildGraph at hbg
      have hin := buildLoop_ok_reqs records _ [] [] w tbl deps hbg (i, reqs) hmem
        ("depends:" ++ D) hreq
      rw [pyDrop_depends] at hin
      rw [show ((records.map (fun r => (r.1, PluginState.init r.1))).map Prod.fst)
          = records.map Prod.fst from by rw [List.map_map]; rfl] at hin
      exact hD hin

theorem load_plugins_missing_dependency_witness :
    (∃ d, (load_plugins [("a", ["depends:ghost"])]).outcome
        = .error (.missingDependency d)) ∧
    (load_plugins [("a", ["depends:ghost"])]).spawned = [] :=
  load_plugins_missing_dependency [("a", ["depends:ghost"])] "a" "ghost"
    ["depends:ghost"] (by decide) (by decide) (by decide)

/-- C5: if the dependency graph built by `load_plugins` contains a cycle
among distinct identifiers (length ≥ 2), the launch fails with a
cyclic-dependency error whose payload names every identifier on the cycle
(in particular at least one), and no process is spawned. -/
theorem load_plugins_cycle_fails (records : List (String × List String))
    (w : List String) (tbl : Table) (deps : List (String × List String))
    (c : List String) (sigma : String → String)
    (hnd : (records.map Prod.fst).Nodup)
    (hb : buildGraph records = (w, .ok (tbl, deps)))
    (hc : c ≠ [])
    (hcyc : ∀ x ∈ c, sigma x ∈ c ∧ sigma x ≠ x ∧ EdgeG deps x (sigma x)) :
    (∃ rem, (load_plugins records).outcome = .error (.cyclicDependency rem) ∧
      ∀ x ∈ c, x ∈ rem) ∧
    (load_plugins records).spawned = [] := by
  have hdk : (deps.map Prod.fst).Nodup := by
    rw [(buildGraph_inv hnd hb).2.1]; exact hnd
  have hcld : ClosedG deps := buildGraph_deps_closed hnd hb
  obtain ⟨e, he, hce⟩ := toposort_flatten_cycle c sigma hdk hcld hc hcyc
  constructor
  · exact ⟨e, by rw [load_plugins_eq_of_build_ok hb, he], hce⟩
  · rw [load_plugins_eq_of_build_ok hb, he]

theorem load_plugins_cycle_fails_witness :
    (∃ rem, (load_plugins mutualRecords).outcome = .error (.cyclicDependency rem) ∧
      ∀ x ∈ (["a", "b"] : List String), x ∈ rem) ∧
    (load_plugins mutualRecords).spawned = [] :=
  load_plugins_cycle_fails mutualRecords []
    [("a", ⟨"a", ["b"], ["b"], none⟩), ("b", ⟨"b", ["a"], ["a"], none⟩)]
    [("a", ["b"]), ("b", ["a"])] ["a", "b"]
    (fun x => if x = "a" then "b" else "a") (by decide) rfl (by decide)
    (by
      intro x hx
      rcases List.mem_cons.mp hx with rfl | hx
      · exact ⟨by decide, by decide, ⟨["b"], rfl, by decide⟩⟩
      · rcases List.mem_cons.mp hx with rfl | hx
        · exact ⟨by decide, by decide, ⟨["a"], rfl, by decide⟩⟩
        · cases hx)

/-- C9: the linearization is a deterministic function of the graph (not of
the insertion order of its entries): any two association lists denoting
the same dependency dict linearize to exactly the same order, including
the tie-break, which sorts each batch of unconstrained identifiers. -/
theorem toposort_deterministic (g₁ g₂ : List (String × List String)) (hp : g₁.Perm g₂) :
    ∀ l, toposort_flatten g₁ = .ok l ↔ toposort_flatten g₂ = .ok l := by
  intro l
  by_cases hg1 : g₁.isEmpty = true
  · have hg2 : g₂.isEmpty = true := by
      rw [List.isEmpty_iff] at hg1 ⊢
      have h2 := hp
      rw [hg1] at h2
      exact h2.symm.eq_nil
    unfold toposort_flatten
    rw [if_pos hg1, if_pos hg2]
  · have hg2 : ¬ g₂.isEmpty = true := by
      intro hc
      apply hg1
      rw [List.isEmpty_iff] at hc ⊢
      have h2 := hp
      rw [hc] at h2
      exact h2.eq_nil
    have hself : (selfFiltered g₁).Perm (selfFiltered g₂) := hp.map _
    have hkeysp : ((selfFiltered g₁).map Prod.fst).Perm ((selfFiltered g₂).map Prod.fst) :=
      hself.map _
    have hextra : (extraItems (selfFiltered g₁)).Perm (extraItems (selfFiltered g₂)) := by
      unfold extraItems
      apply List.Perm.dedup
      have hflat : (((selfFiltered g₁).map Prod.snd).flatten).Perm
          (((selfFiltered g₂).map Prod.snd).flatten) := (hself.map _).flatten
      have hcongr : ∀ d ∈ ((selfFiltered g₂).map Prod.snd).flatten,
          (decide (d ∉ (selfFiltered g₂).map Prod.fst))
            = (decide (d ∉ (selfFiltered g₁).map Prod.fst)) := by
        intro d _
        apply decide_eq_decide.mpr
        exact not_congr hkeysp.mem_iff.symm
      rw [List.filter_congr hcongr]
      exact hflat.filter _
    have hfull : (fullData g₁).Perm (fullData g₂) := by
      unfold fullData
      exact hself.append (hextra.map _)
    have hlen : (fullData g₁).length = (fullData g₂).length := hfull.length_eq
    unfold toposort_flatten
    rw [if_neg hg1, if_neg hg2, ← hlen]
    rcases toposortAux_perm ((fullData g₁).length + 1) _ _ hfull with
      ⟨l0, h1, h2⟩ | ⟨e₁, e₂, h1, h2⟩
    · rw [h1, h2]
    · rw [h1, h2]
      constructor <;> (intro hcon; cases hcon)

theorem toposort_deterministic_witness :
    (toposort_flatten [("a", []), ("b", ["a"])] = .ok ["a", "b"]) ↔
    (toposort_flatten [("b", ["a"]), ("a", [])] = .ok ["a", "b"]) :=
  toposort_deterministic [("a", []), ("b", ["a"])] [("b", ["a"]), ("a", [])]
    (by decide) ["a", "b"]

/-- C10: after the graph-building loop succeeds, the forward and reverse
adjacency are exact mirrors (`y ∈ plugins[x].dependencies` iff
`x ∈ plugins[y].depended_by`) and every member of either set is a key of
the plugin table. -/
theorem buildGraph_mirror (records : List (String × List String))
    (w : List String) (tbl : Table) (deps : List (String × List String))
    (hnd : (records.map Prod.fst).Nodup)
    (hb : buildGraph records = (w, .ok (tbl, deps))) :
    MirrorTable tbl ∧ TableClosed tbl := by
  obtain ⟨_, _, hcl, hmir, _⟩ := buildGraph_inv hnd hb
  exact ⟨hmir, hcl⟩

theorem buildGraph_mirror_witness :
    MirrorTable [("a", ⟨"a", [], ["b"], none⟩), ("b", ⟨"b", ["a"], ["c"], none⟩),
      ("c", ⟨"c", ["b"], [], none⟩)] ∧
    TableClosed [("a", ⟨"a", [], ["b"], none⟩), ("b", ⟨"b", ["a"], ["c"], none⟩),
      ("c", ⟨"c", ["b"], [], none⟩)] :=
  buildGraph_mirror chainRecords []
    [("a", ⟨"a", [], ["b"], none⟩), ("b", ⟨"b", ["a"], ["c"], none⟩),
      ("c", ⟨"c", ["b"], [], none⟩)]
    [("a", []), ("b", ["a"]), ("c", ["b"])] (by decide) rfl
